import Mathlib

/-!
Verification of the enrichment pipeline and rolling history store of the
Weibo/Douyin hotspot analysis program (files `weibo_hotspot_analysis.py`,
`providers.py`, `config.py`).

Modelling conventions: Python dictionaries become Lean structures, optional
dictionary keys become `Option` fields, raising code becomes `Except Unit`
values, numeric JSON scores become exact rationals, and timestamps become
abstract instants (`Nat`).  The nondeterministic completion order of the
thread pool in `analyze_topics` is an explicit list parameter that ranges
over all permutations of the submitted topics.
-/

namespace Weibo

/-- A normalized hot-search topic, as produced by `_normalize_items` /
`_load_example_data`. -/
structure Topic where
  rank : Nat
  title : String
  hot_value : String
  label : String
  source : String
  deriving DecidableEq, Repr

/-- One search hit as returned by every `SearchProvider.search`
implementation in `providers.py`. -/
structure SearchResult where
  title : String
  link : String
  snippet : String
  deriving DecidableEq, Repr

/-- A competitor reference kept by the competitor-search step of
`_process_single_topic`. -/
structure Competitor where
  name : String
  url : String
  deriving DecidableEq, Repr

/-- The `scores` dictionary attached to a creative.  The generation output
may supply `interest`, `usefulness` and even a `total`; a missing key is
`none`. -/
structure Scores where
  interest : Option ℚ
  usefulness : Option ℚ
  total : Option ℚ
  deriving DecidableEq, Repr

/-- One creative as found in the parsed generation output
(`llm_result["creatives"][i]`), before post-processing. -/
structure Creative where
  name : String
  features : List String
  target_users : String
  scores : Option Scores
  search_keywords : Option String
  quality : Option String
  quality_class : Option String
  deriving DecidableEq, Repr

/-- The `research` dictionary of the generation output. -/
structure Research where
  summary : String
  timeline : List String
  deriving DecidableEq, Repr

/-- The parsed JSON mapping returned by `generate_json`; missing keys are
`none`. -/
structure LLMResult where
  research : Option Research
  creatives : Option (List Creative)
  deriving DecidableEq, Repr

/-- A creative after the post-processing loop of `_process_single_topic`:
an id, competitors, a derived total and a derived quality tier have been
attached. -/
structure Idea where
  id : String
  name : String
  features : List String
  target_users : String
  scores : Option Scores
  search_keywords : Option String
  quality : String
  quality_class : String
  competitors : List Competitor
  deriving DecidableEq, Repr

/-- The per-topic result dictionary returned by `_process_single_topic`. -/
structure TopicResult where
  topic : Topic
  research : Research
  creatives : List Idea
  deriving DecidableEq, Repr

/-- One hour-bucketed batch (`batch_entry` in `analyze_topics`).  The
timestamp strings of the source are modelled as abstract instants. -/
structure Batch where
  timestamp : Nat
  timestamp_hour : Nat
  results : List TopicResult
  deriving DecidableEq, Repr

/-! ### History store (`analyze_topics`, lines 330-340) -/

/-- One history update, exactly as in `analyze_topics`: when the head batch
carries the same `timestamp_hour` the new batch replaces it in place,
otherwise the new batch is prepended; afterwards, when the length exceeds
24, the last entry is popped. -/
def updateHistory (history : List Batch) (b : Batch) : List Batch :=
  let l : List Batch :=
    match history with
    | h0 :: rest =>
        if h0.timestamp_hour = b.timestamp_hour then b :: rest
        else b :: h0 :: rest
    | [] => [b]
  if l.length > 24 then l.dropLast else l

/-- The same replace-or-prepend step without the 24-entry cap; used to
express which entries the cap retains. -/
def updateHistoryU (history : List Batch) (b : Batch) : List Batch :=
  match history with
  | h0 :: rest =>
      if h0.timestamp_hour = b.timestamp_hour then b :: rest
      else b :: h0 :: rest
  | [] => [b]

/-- Most-recent-first order on batches: hours are weakly decreasing. -/
def sortedDescHours (l : List Batch) : Prop :=
  l.Pairwise (fun a b => b.timestamp_hour ≤ a.timestamp_hour)

/-- Most-recent-first order with pairwise distinct hours. -/
def strictDescHours (l : List Batch) : Prop :=
  l.Pairwise (fun a b => b.timestamp_hour < a.timestamp_hour)

/-- The relation `hourLe a b` means batch `a` is from an hour no later than batch `b`. -/
def hourLe (a b : Batch) : Prop := a.timestamp_hour ≤ b.timestamp_hour

/-- The wall clock never runs backwards across a run: every incoming batch
is stamped no earlier than the current history head and the incoming
batches arrive in chronological order. -/
def monotoneUpdates (init bs : List Batch) : Prop :=
  List.Chain' hourLe (init.take 1 ++ bs)

/-! ### Fetcher (`fetch_hot_searches`, `_load_example_data`, `_normalize_items`) -/

/-- One raw item of the external hot-search payload (`result.list[i]`); a
missing JSON key is `none`.  Weibo items carry `hotword`/`hotwordnum`/
`hottag`, Douyin items carry `word`/`hotindex`. -/
structure RawItem where
  hotword : Option String
  hotwordnum : Option String
  hottag : Option String
  word : Option String
  hotindex : Option Int
  deriving DecidableEq, Repr

/-- Outcome of the external hot-search request as observed by
`fetch_hot_searches`: a raising `requests.get`/`raise_for_status` call, a
body that fails to parse as JSON, or a parsed envelope with its application
`code` and `result.list`. -/
inductive ApiOutcome where
  | transport_error : ApiOutcome
  | malformed_payload : ApiOutcome
  | payload (code : Option Int) (items : List RawItem) : ApiOutcome
  deriving DecidableEq, Repr

/-- The `Config.MAX_TOPICS` setting at its default configuration value. -/
def MAX_TOPICS : Nat := 10

/-- The fixed two-entry fallback list of `_load_example_data`. -/
def load_example_data (source : String) : List Topic :=
  [ { rank := 1, title := "示例" ++ source ++ "话题1", hot_value := "100万",
      label := "热", source := source },
    { rank := 2, title := "示例" ++ source ++ "话题2", hot_value := "80万",
      label := "新", source := source } ]

/-- Models the one-decimal display of `hotindex/10000` (the
`f"..:.1f"` format) on the exact rational value with round-half-to-even;
the source formats an IEEE double, which agrees except on decimal ties that
are not exactly representable in binary. -/
def format_hot_index (n : Int) : String :=
  let q : Int := n / 1000
  let r : Int := n % 1000
  let tenths : Int :=
    if 500 < r then q + 1
    else if r < 500 then q
    else if q % 2 = 0 then q else q + 1
  toString (tenths / 10) ++ "." ++ toString ((tenths % 10).natAbs) ++ "万"

/-- The `_normalize_items` step: truncate to `MAX_TOPICS`, assign 1-based ranks by
position, and normalize fields per source; a source other than weibo or
douyin yields no items. -/
def normalize_items (raw_items : List RawItem) (source : String) : List Topic :=
  ((raw_items.take MAX_TOPICS).enum).filterMap (fun p =>
    if source = "weibo" then
      some { rank := p.1 + 1, title := p.2.hotword.getD "",
             hot_value := (p.2.hotwordnum.getD "").trim,
             label := p.2.hottag.getD "", source := "weibo" }
    else if source = "douyin" then
      some { rank := p.1 + 1, title := p.2.word.getD "",
             hot_value := format_hot_index (p.2.hotindex.getD 0),
             label := "", source := "douyin" }
    else none)

/-- The `fetch_hot_searches` operation: with the live source enabled, degrade to the
example data on a transport error, a malformed payload or a non-200
application `code`; otherwise normalize `result.list`.  With the live
source disabled the example data is returned directly. -/
def fetch_hot_searches (source : String) (use_api : Bool) (outcome : ApiOutcome) :
    List Topic :=
  if use_api then
    match outcome with
    | .transport_error => load_example_data source
    | .malformed_payload => load_example_data source
    | .payload code items =>
        if code ≠ some 200 then load_example_data source
        else normalize_items items source
  else load_example_data source

/-! ### Enricher (`_process_single_topic`) -/

/-- Lowercase a string (Python `.lower()`; ASCII case folding). -/
def lowerStr (s : String) : String := String.mk (s.data.map Char.toLower)

/-- Does `needle` occur at the start of `hay`? -/
def startsWithChars : List Char → List Char → Bool
  | [], _ => true
  | _ :: _, [] => false
  | a :: as, b :: bs => a == b && startsWithChars as bs

/-- Does `needle` occur anywhere inside `hay`? -/
def occursIn (needle : List Char) : List Char → Bool
  | [] => needle.isEmpty
  | c :: t => startsWithChars needle (c :: t) || occursIn needle t

/-- Python's substring test `needle in hay` on strings. -/
def strContains (hay needle : String) : Bool := occursIn needle.data hay.data

/-- The dictionary/grammar denylist of the competitor filter. -/
def deny_words : List String :=
  ["dictionary", "thesaurus", "grammar", "stackexchange", "definition", "meaning"]

/-- The skip test of the competitor loop, on the lowercased link and title:
drop analytics tools (`similarweb.com` in the link or `similarweb` in the
title) and dictionary/grammar sites (any denylist word in link or title). -/
def skip_competitor (res : SearchResult) : Bool :=
  let link := lowerStr res.link
  let title := lowerStr res.title
  strContains link "similarweb.com" || strContains title "similarweb" ||
    deny_words.any (fun x => strContains link x || strContains title x)

/-- The `for res in comp_results` loop with its counter: keep up to two
non-skipped results as competitors. -/
def collect_competitors : List SearchResult → Nat → List Competitor
  | [], _ => []
  | res :: rest, count =>
      if 2 ≤ count then []
      else if skip_competitor res then collect_competitors rest count
      else { name := res.title, url := res.link } :: collect_competitors rest (count + 1)

/-- The competitor-search query built from the creative's lookup phrase. -/
def comp_query (search_keywords : String) : String :=
  search_keywords ++ " 类似App 竞品"

/-- Post-processing of one creative (`for i, creative in enumerate(...)`):
attach the id, run the guarded competitor search (whose failure degrades to
an empty list), derive the total score and the quality tier.  When the
creative has no `scores` dictionary the computed total is written into a
fresh temporary dictionary, so the output keeps no scores — mirrored by
`Option.map`. -/
def process_creative (search : String → Except Unit (List SearchResult))
    (topic : Topic) (i : Nat) (c : Creative) : Idea :=
  let keywords := c.search_keywords.getD c.name
  let competitors : List Competitor :=
    match search (comp_query keywords) with
    | .error _ => []
    | .ok rs => collect_competitors rs 0
  let interest : ℚ := (c.scores.bind (fun s => s.interest)).getD 0
  let usefulness : ℚ := (c.scores.bind (fun s => s.usefulness)).getD 0
  let total : ℚ := interest * 0.8 + usefulness * 0.2
  { id := toString topic.rank ++ "-" ++ toString (i + 1)
    name := c.name
    features := c.features
    target_users := c.target_users
    scores := c.scores.map (fun s => { s with total := some total })
    search_keywords := c.search_keywords
    quality :=
      if total ≥ 80 then "优秀" else if total ≥ 60 then "良好" else "需要改进"
    quality_class :=
      if total ≥ 80 then "excellent"
      else if total ≥ 60 then "good"
      else "needs-improvement"
    competitors := competitors }

/-- Default research when the generation output lacks the key. -/
def research_missing : Research := { summary := "分析失败", timeline := [] }

/-- The research placeholder of the failure path of
`_process_single_topic`. -/
def research_error : Research := { summary := "分析过程中发生错误", timeline := [] }

/-- The fallback result of the `except` branch of `_process_single_topic`:
same topic, placeholder research, empty idea list. -/
def failed_result (topic : Topic) : TopicResult :=
  { topic := topic, research := research_error, creatives := [] }

/-- The initial research query built from the title and the current year. -/
def search_query (topic : Topic) (year : Nat) : String :=
  topic.title ++ " " ++ toString year ++ "年 最新消息"

/-- The bounded textual search context passed to the generation prompt. -/
def search_context (results : List SearchResult) : String :=
  String.intercalate "\n"
    (results.map (fun r => "- Title: " ++ r.title ++ "\n  Snippet: " ++ r.snippet))

/-- The structured generation prompt.  Its exact wording (with its embedded
JSON template) is outside the specified data contract; what matters here is
that it is a function of the date string, the topic and the search
context. -/
def prompt_for (date_str : String) (topic : Topic) (ctx : String) : String :=
  "当前日期是: " ++ date_str ++ "。 请分析以下" ++ topic.source ++ "热搜话题: " ++
    topic.title ++ " 搜索结果: " ++ ctx

/-- The `try` block of `_process_single_topic`: generation plus the
per-creative post-processing loop; a raising generation capability is
absorbed here and yields the failure placeholder result. -/
def process_with_llm (search : String → Except Unit (List SearchResult))
    (gen : String → Except Unit LLMResult) (date_str : String) (topic : Topic)
    (ctx : String) : TopicResult :=
  match gen (prompt_for date_str topic ctx) with
  | .error _ => failed_result topic
  | .ok llm =>
      { topic := topic
        research := llm.research.getD research_missing
        creatives := (llm.creatives.getD []).enum.map
          (fun p => process_creative search topic p.1 p.2) }

/-- The whole of `_process_single_topic`.  The initial search call (step 1) sits outside
the `try` block of the source, so a raising search capability propagates
out of the Enricher; everything after it is guarded. -/
def process_single_topic (search : String → Except Unit (List SearchResult))
    (gen : String → Except Unit LLMResult) (year : Nat) (date_str : String)
    (topic : Topic) : Except Unit TopicResult := do
  let search_results ← search (search_query topic year)
  pure (process_with_llm search gen date_str topic (search_context search_results))

/-! ### Batch Coordinator (`analyze_topics`) -/

/-- Order on per-topic results by the rank of their topic. -/
def rank_le (a b : TopicResult) : Prop := a.topic.rank ≤ b.topic.rank

instance : DecidableRel rank_le := fun a b =>
  inferInstanceAs (Decidable (a.topic.rank ≤ b.topic.rank))

instance : IsTotal TopicResult rank_le :=
  ⟨fun a b => Nat.le_total a.topic.rank b.topic.rank⟩

instance : IsTrans TopicResult rank_le := ⟨fun _ _ _ h1 h2 => Nat.le_trans h1 h2⟩

/-- The final `results.sort(key=lambda x: x["topic"]["rank"])`, modelled by
a stable sort with respect to `rank_le`. -/
def sortByRank (l : List TopicResult) : List TopicResult :=
  List.insertionSort rank_le l

/-- The fan-in of `analyze_topics`: futures are consumed in
`completion_order`; a future whose enrichment raised is caught, logged and
skipped, the others are collected. -/
def collect_results (enrich : Topic → Except Unit TopicResult)
    (completion_order : List Topic) : List TopicResult :=
  completion_order.filterMap (fun t => (enrich t).toOption)

/-- The `analyze_topics` operation: guard on an empty topic list, collect the concurrent
results, sort by rank, build the hour-stamped batch and update the history;
returns the sorted results together with the new history. -/
def analyze_topics (enrich : Topic → Except Unit TopicResult)
    (completion_order : List Topic) (now ts_hour : Nat)
    (topics : List Topic) (history : List Batch) :
    List TopicResult × List Batch :=
  if topics.isEmpty then ([], history)
  else
    let results := sortByRank (collect_results enrich completion_order)
    let batch_entry : Batch :=
      { timestamp := now, timestamp_hour := ts_hour, results := results }
    (results, updateHistory history batch_entry)

/-- One per-platform slice of `run_full_analysis_cycle`: fetch, and only
when the fetched list is non-empty, analyze (which updates and persists the
history). -/
def run_cycle_source (source : String) (use_api : Bool) (outcome : ApiOutcome)
    (enrich : Topic → Except Unit TopicResult) (completion_order : List Topic)
    (now ts_hour : Nat) (history : List Batch) : List Batch :=
  let topics := fetch_hot_searches source use_api outcome
  if topics.isEmpty then history
  else (analyze_topics enrich completion_order now ts_hour topics history).2

/-! ### Concrete sample inputs for the instantiation theorems -/

/-- Sample batch stamped in hour 1, used by concrete instantiations. -/
def batchA : Batch := { timestamp := 100, timestamp_hour := 1, results := [] }

/-- Sample batch stamped in hour 2. -/
def batchB : Batch := { timestamp := 200, timestamp_hour := 2, results := [] }

/-- A second sample batch in hour 2 (a same-hour re-run). -/
def batchB' : Batch := { timestamp := 230, timestamp_hour := 2, results := [] }

/-- Sample batch stamped in hour 3. -/
def batchC : Batch := { timestamp := 300, timestamp_hour := 3, results := [] }

/-- A sample rank-1 topic. -/
def topic1 : Topic :=
  { rank := 1, title := "话题一", hot_value := "100万", label := "", source := "weibo" }

/-- A sample rank-2 topic. -/
def topic2 : Topic :=
  { rank := 2, title := "话题二", hot_value := "90万", label := "", source := "weibo" }

/-- A search capability that succeeds with an empty result list. -/
def ok_search : String → Except Unit (List SearchResult) := fun _ => Except.ok []

/-- A search capability that raises on every query. -/
def fail_search : String → Except Unit (List SearchResult) := fun _ => Except.error ()

/-- A generation capability that raises on every prompt. -/
def fail_gen : String → Except Unit LLMResult := fun _ => Except.error ()

/-- A generation capability that returns an empty structured result. -/
def ok_gen : String → Except Unit LLMResult := fun _ =>
  Except.ok { research := some { summary := "摘要", timeline := [] }, creatives := some [] }

/-- A sample creative carrying generation-supplied sub-scores together with
a bogus supplied total and quality, which the Enricher must overwrite. -/
def sample_creative : Creative :=
  { name := "创意A", features := ["功能1"], target_users := "用户",
    scores := some { interest := some 100, usefulness := some 0, total := some 42 },
    search_keywords := some "记账App", quality := some "胡说",
    quality_class := some "bogus" }

/-- A competitor-search hit whose link contains `similarweb` but not
`similarweb.com`, with a clean title. -/
def sneaky_result : SearchResult :=
  { title := "Top apps ranking", link := "https://similarweb.io/top-apps",
    snippet := "ranking site" }

/-- An enrichment that succeeds on every topic with an empty analysis. -/
def simple_enrich : Topic → Except Unit TopicResult := fun t =>
  Except.ok { topic := t, research := research_missing, creatives := [] }

/-- An enrichment that raises on the rank-1 topic and succeeds otherwise. -/
def drop_enrich : Topic → Except Unit TopicResult := fun t =>
  if t.rank = 1 then Except.error ()
  else Except.ok { topic := t, research := research_missing, creatives := [] }

lemma updateHistory_eq (h : List Batch) (b : Batch) :
    updateHistory h b =
      if (updateHistoryU h b).length > 24 then (updateHistoryU h b).dropLast
      else updateHistoryU h b := rfl

lemma updateHistoryU_cons (h : List Batch) (b : Batch) :
    ∃ t, updateHistoryU h b = b :: t := by
  cases h with
  | nil => exact ⟨[], rfl⟩
  | cons h0 rest =>
      unfold updateHistoryU
      by_cases hh : h0.timestamp_hour = b.timestamp_hour
      · exact ⟨rest, by simp [hh]⟩
      · exact ⟨h0 :: rest, by simp [hh]⟩

lemma updateHistoryU_take_one (h : List Batch) (b : Batch) :
    (updateHistoryU h b).take 1 = [b] := by
  obtain ⟨t, ht⟩ := updateHistoryU_cons h b
  rw [ht]
  rfl

lemma updateHistory_take_one (h : List Batch) (b : Batch) :
    (updateHistory h b).take 1 = [b] := by
  obtain ⟨t, ht⟩ := updateHistoryU_cons h b
  rw [updateHistory_eq, ht]
  split
  · rename_i hlen
    cases t with
    | nil => simp at hlen
    | cons x t' => rfl
  · rfl

lemma sortedDescHours_updateHistoryU {h : List Batch} {b : Batch}
    (hs : sortedDescHours h)
    (hb : ∀ x ∈ h.take 1, x.timestamp_hour ≤ b.timestamp_hour) :
    sortedDescHours (updateHistoryU h b) := by
  cases h with
  | nil => exact List.pairwise_singleton _ _
  | cons h0 rest =>
      have hb0 : h0.timestamp_hour ≤ b.timestamp_hour :=
        hb h0 (List.mem_singleton.2 rfl)
      unfold sortedDescHours at hs ⊢
      rw [List.pairwise_cons] at hs
      unfold updateHistoryU
      by_cases hh : h0.timestamp_hour = b.timestamp_hour
      · simp only [hh, ite_true]
        rw [List.pairwise_cons]
        exact ⟨fun x hx => hh ▸ hs.1 x hx, hs.2⟩
      · simp only [hh, ite_false]
        rw [List.pairwise_cons]
        refine ⟨?_, List.pairwise_cons.2 hs⟩
        intro x hx
        rcases List.mem_cons.1 hx with rfl | hx
        · exact hb0
        · exact le_trans (hs.1 x hx) hb0

lemma strictDescHours_updateHistoryU {h : List Batch} {b : Batch}
    (hs : strictDescHours h)
    (hb : ∀ x ∈ h.take 1, x.timestamp_hour ≤ b.timestamp_hour) :
    strictDescHours (updateHistoryU h b) := by
  cases h with
  | nil => exact List.pairwise_singleton _ _
  | cons h0 rest =>
      have hb0 : h0.timestamp_hour ≤ b.timestamp_hour :=
        hb h0 (List.mem_singleton.2 rfl)
      unfold strictDescHours at hs ⊢
      rw [List.pairwise_cons] at hs
      unfold updateHistoryU
      by_cases hh : h0.timestamp_hour = b.timestamp_hour
      · simp only [hh, ite_true]
        rw [List.pairwise_cons]
        exact ⟨fun x hx => hh ▸ hs.1 x hx, hs.2⟩
      · simp only [hh, ite_false]
        have hb0' : h0.timestamp_hour < b.timestamp_hour := lt_of_le_of_ne hb0 hh
        rw [List.pairwise_cons]
        refine ⟨?_, List.pairwise_cons.2 hs⟩
        intro x hx
        rcases List.mem_cons.1 hx with rfl | hx
        · exact hb0'
        · exact lt_trans (hs.1 x hx) hb0'

lemma strictDescHours_updateHistory {h : List Batch} {b : Batch}
    (hs : strictDescHours h)
    (hb : ∀ x ∈ h.take 1, x.timestamp_hour ≤ b.timestamp_hour) :
    strictDescHours (updateHistory h b) := by
  have core := strictDescHours_updateHistoryU hs hb
  rw [updateHistory_eq]
  split
  · exact core.sublist (List.dropLast_sublist _)
  · exact core

lemma monotoneUpdates_head {init : List Batch} {b : Batch} {rest : List Batch}
    (h : monotoneUpdates init (b :: rest)) :
    (∀ x ∈ init.take 1, x.timestamp_hour ≤ b.timestamp_hour) ∧
      List.Chain' hourLe (b :: rest) := by
  cases init with
  | nil =>
      constructor
      · intro x hx
        exact absurd hx (List.not_mem_nil x)
      · exact h
  | cons h0 t =>
      have h' : List.Chain' hourLe (h0 :: b :: rest) := h
      rw [List.chain'_cons] at h'
      constructor
      · intro x hx
        have hx' : x = h0 := List.mem_singleton.1 hx
        subst hx'
        exact h'.1
      · exact h'.2

lemma foldl_updateHistoryU_sorted :
    ∀ (bs init : List Batch), sortedDescHours init → monotoneUpdates init bs →
      sortedDescHours (bs.foldl updateHistoryU init) := by
  intro bs
  induction bs with
  | nil => intro init hs _; exact hs
  | cons b rest ih =>
      intro init hs hchain
      obtain ⟨hb, hrest⟩ := monotoneUpdates_head hchain
      have hs' : sortedDescHours (updateHistoryU init b) :=
        sortedDescHours_updateHistoryU hs hb
      have hchain' : monotoneUpdates (updateHistoryU init b) rest := by
        unfold monotoneUpdates
        rw [updateHistoryU_take_one]
        exact hrest
      exact ih (updateHistoryU init b) hs' hchain'

lemma foldl_updateHistory_strict :
    ∀ (bs init : List Batch), strictDescHours init → monotoneUpdates init bs →
      strictDescHours (bs.foldl updateHistory init) := by
  intro bs
  induction bs with
  | nil => intro init hs _; exact hs
  | cons b rest ih =>
      intro init hs hchain
      obtain ⟨hb, hrest⟩ := monotoneUpdates_head hchain
      have hs' : strictDescHours (updateHistory init b) :=
        strictDescHours_updateHistory hs hb
      have hchain' : monotoneUpdates (updateHistory init b) rest := by
        unfold monotoneUpdates
        rw [updateHistory_take_one]
        exact hrest
      exact ih (updateHistory init b) hs' hchain'

lemma updateHistory_take (l : List Batch) (b : Batch) :
    updateHistory (l.take 24) b = (updateHistoryU l b).take 24 := by
  cases l with
  | nil => rfl
  | cons h0 t =>
      have h24 : (h0 :: t).take 24 = h0 :: t.take 23 := rfl
      rw [h24, updateHistory_eq]
      by_cases hh : h0.timestamp_hour = b.timestamp_hour
      · have hU1 : updateHistoryU (h0 :: t.take 23) b = b :: t.take 23 := by
          show (if h0.timestamp_hour = b.timestamp_hour then b :: t.take 23
            else b :: h0 :: t.take 23) = b :: t.take 23
          rw [if_pos hh]
        have hU2 : updateHistoryU (h0 :: t) b = b :: t := by
          show (if h0.timestamp_hour = b.timestamp_hour then b :: t
            else b :: h0 :: t) = b :: t
          rw [if_pos hh]
        rw [hU1, hU2]
        have hlen : ¬ (b :: t.take 23).length > 24 := by
          simp only [List.length_cons, List.length_take]
          omega
        rw [if_neg hlen]
        rfl
      · have hU1 : updateHistoryU (h0 :: t.take 23) b = b :: h0 :: t.take 23 := by
          show (if h0.timestamp_hour = b.timestamp_hour then b :: t.take 23
            else b :: h0 :: t.take 23) = b :: h0 :: t.take 23
          rw [if_neg hh]
        have hU2 : updateHistoryU (h0 :: t) b = b :: h0 :: t := by
          show (if h0.timestamp_hour = b.timestamp_hour then b :: t
            else b :: h0 :: t) = b :: h0 :: t
          rw [if_neg hh]
        rw [hU1, hU2]
        by_cases ht : 23 ≤ t.length
        · have hgt : (b :: h0 :: t.take 23).length > 24 := by
            simp only [List.length_cons, List.length_take]
            omega
          rw [if_pos hgt]
          rw [List.dropLast_eq_take]
          have hlen25 : (b :: h0 :: t.take 23).length = 25 := by
            simp only [List.length_cons, List.length_take]
            omega
          rw [hlen25]
          have e1 : (25 : Nat) - 1 = 24 := rfl
          rw [e1]
          have e2 : (b :: h0 :: t.take 23).take 24 = b :: h0 :: (t.take 23).take 22 := rfl
          have e3 : (b :: h0 :: t).take 24 = b :: h0 :: t.take 22 := rfl
          rw [e2, e3, List.take_take]
          norm_num
        · have hle : ¬ (b :: h0 :: t.take 23).length > 24 := by
            simp only [List.length_cons, List.length_take]
            omega
          rw [if_neg hle]
          have ht' : t.take 23 = t := List.take_of_length_le (by omega)
          rw [ht']
          have e3 : (b :: h0 :: t).take 24 = b :: h0 :: t.take 22 := rfl
          rw [e3, List.take_of_length_le (by omega)]

lemma foldl_updateHistory_take :
    ∀ (bs init : List Batch),
      bs.foldl updateHistory (init.take 24) = (bs.foldl updateHistoryU init).take 24 := by
  intro bs
  induction bs with
  | nil => intro init; rfl
  | cons b rest ih =>
      intro init
      simp only [List.foldl_cons]
      rw [updateHistory_take, ih]

/-- Claim C2: for every existing history and every new batch, if the
most-recent existing batch (position 0) has the same `timestamp_hour` as the
new batch, the new batch replaces it in place and the history length is
unchanged; otherwise the new batch is inserted at position 0, shifting the
others down, and the length grows by one (up to the cap of 24). -/
theorem update_hour_bucket_replace_or_insert
    (history : List Batch) (b : Batch) (hlen : history.length ≤ 24) :
    (∀ h0 rest, history = h0 :: rest →
        h0.timestamp_hour = b.timestamp_hour →
          updateHistory history b = b :: rest ∧
          (updateHistory history b).length = history.length) ∧
    ((∀ h0 ∈ history.take 1, h0.timestamp_hour ≠ b.timestamp_hour) →
        updateHistory history b = (b :: history).take 24 ∧
        (updateHistory history b).length = min (history.length + 1) 24) := by
  constructor
  · intro h0 rest heq hh
    subst heq
    have hU : updateHistoryU (h0 :: rest) b = b :: rest := by
      show (if h0.timestamp_hour = b.timestamp_hour then b :: rest
        else b :: h0 :: rest) = b :: rest
      rw [if_pos hh]
    rw [updateHistory_eq, hU]
    have hlen' : ¬ (b :: rest).length > 24 := by
      simp only [List.length_cons]
      simp only [List.length_cons] at hlen
      omega
    rw [if_neg hlen']
    exact ⟨rfl, by simp⟩
  · intro hne
    cases history with
    | nil =>
        refine ⟨rfl, rfl⟩
    | cons h0 rest =>
        have hne0 : h0.timestamp_hour ≠ b.timestamp_hour :=
          hne h0 (List.mem_singleton.2 rfl)
        have hU : updateHistoryU (h0 :: rest) b = b :: h0 :: rest := by
          show (if h0.timestamp_hour = b.timestamp_hour then b :: rest
            else b :: h0 :: rest) = b :: h0 :: rest
          rw [if_neg hne0]
        rw [updateHistory_eq, hU]
        by_cases hbig : (b :: h0 :: rest).length > 24
        · rw [if_pos hbig]
          simp only [List.length_cons] at hlen hbig ⊢
          have hr : rest.length = 23 := by omega
          constructor
          · rw [List.dropLast_eq_take]
            simp only [List.length_cons, hr]
          · rw [List.dropLast_eq_take]
            simp only [List.length_cons, hr, List.length_take]
            omega
        · rw [if_neg hbig]
          simp only [List.length_cons] at hlen hbig ⊢
          constructor
          · rw [List.take_of_length_le]
            simp only [List.length_cons]
            omega
          · omega

/-- Concrete instantiation of the C2 theorem: inserting a batch with a new
hour into a two-entry history prepends it. -/
theorem update_hour_bucket_witness :
    updateHistory [batchB, batchA] batchC = [batchC, batchB, batchA] ∧
      (updateHistory [batchB, batchA] batchC).length = 3 := by
  have h := (update_hour_bucket_replace_or_insert [batchB, batchA] batchC
    (by decide)).2 (by decide)
  refine ⟨h.1, ?_⟩
  rw [h.2]
  decide

/-- Claim C3: after any number of update calls starting from a history of at
most 24 entries, the history holds at most 24 batches; the capped history is
exactly the first 24 entries of the uncapped replace-or-prepend history,
which, under a monotone clock, is sorted most-recent-first — so the retained
entries are the 24 most recent by `timestamp_hour` and the evictions only
remove the oldest (last) entry. -/
theorem history_capacity_and_recency
    (init : List Batch) (hlen : init.length ≤ 24) (bs : List Batch) :
    (bs.foldl updateHistory init).length ≤ 24 ∧
    bs.foldl updateHistory init = (bs.foldl updateHistoryU init).take 24 ∧
    (sortedDescHours init → monotoneUpdates init bs →
      sortedDescHours (bs.foldl updateHistoryU init)) := by
  have htake : init.take 24 = init := List.take_of_length_le hlen
  have hcomm := foldl_updateHistory_take bs init
  rw [htake] at hcomm
  refine ⟨?_, hcomm, ?_⟩
  · rw [hcomm]
    exact List.length_take_le _ _
  · intro hs hm
    exact foldl_updateHistoryU_sorted bs init hs hm

/-- Concrete instantiation of the C3 theorem on a three-update run. -/
theorem history_capacity_witness :
    ([batchB, batchB', batchC].foldl updateHistory [batchA]).length ≤ 24 ∧
      sortedDescHours ([batchB, batchB', batchC].foldl updateHistoryU [batchA]) := by
  have h := history_capacity_and_recency [batchA] (by decide) [batchB, batchB', batchC]
  refine ⟨h.1, h.2.2 ?_ ?_⟩
  · unfold sortedDescHours
    decide
  · unfold monotoneUpdates
    show List.Chain' hourLe [batchA, batchB, batchB', batchC]
    rw [List.chain'_cons, List.chain'_cons, List.chain'_cons]
    exact ⟨(by decide : (1:Nat) ≤ 2), (by decide : (2:Nat) ≤ 2),
      (by decide : (2:Nat) ≤ 3), List.chain'_singleton _⟩

/-- Claim C9: from any well-formed loaded history (strictly descending
hours) and under a monotone clock, every reachable history state has
pairwise-distinct `timestamp_hour` values — at most one batch per hour — and
a second update within the same hour overwrites the position-0 batch instead
of appending. -/
theorem history_hour_uniqueness
    (init : List Batch) (bs : List Batch)
    (hinit : strictDescHours init) (hm : monotoneUpdates init bs) :
    strictDescHours (bs.foldl updateHistory init) ∧
    ((bs.foldl updateHistory init).map Batch.timestamp_hour).Nodup ∧
    (∀ (h : List Batch) (b : Batch) h0 rest, h = h0 :: rest → h.length ≤ 24 →
      h0.timestamp_hour = b.timestamp_hour → updateHistory h b = b :: rest) := by
  have hstrict := foldl_updateHistory_strict bs init hinit hm
  refine ⟨hstrict, ?_, ?_⟩
  · have hne : (bs.foldl updateHistory init).Pairwise
        (fun a b => a.timestamp_hour ≠ b.timestamp_hour) :=
      hstrict.imp (fun hab => (Nat.ne_of_lt hab).symm)
    exact List.pairwise_map.2 hne
  · intro h b h0 rest heq hlen hh
    subst heq
    have hU : updateHistoryU (h0 :: rest) b = b :: rest := by
      show (if h0.timestamp_hour = b.timestamp_hour then b :: rest
        else b :: h0 :: rest) = b :: rest
      rw [if_pos hh]
    rw [updateHistory_eq, hU]
    have hlen' : ¬ (b :: rest).length > 24 := by
      simp only [List.length_cons]
      simp only [List.length_cons] at hlen
      omega
    rw [if_neg hlen']

/-- Concrete instantiation of the C9 theorem: a same-hour re-run (batchB
then batchB' in hour 2) leaves the hour values distinct. -/
theorem history_hour_uniqueness_witness :
    strictDescHours ([batchB, batchB', batchC].foldl updateHistory [batchA]) ∧
      (([batchB, batchB', batchC].foldl updateHistory [batchA]).map
        Batch.timestamp_hour).Nodup := by
  have h := history_hour_uniqueness [batchA] [batchB, batchB', batchC]
    (by unfold strictDescHours; decide)
    (by
      unfold monotoneUpdates
      show List.Chain' hourLe [batchA, batchB, batchB', batchC]
      rw [List.chain'_cons, List.chain'_cons, List.chain'_cons]
      exact ⟨(by decide : (1:Nat) ≤ 2), (by decide : (2:Nat) ≤ 2),
        (by decide : (2:Nat) ≤ 3), List.chain'_singleton _⟩)
  exact ⟨h.1, h.2.1⟩

/-- Claim C7: for every platform and every failing behavior of the external
hot-search source — transport error, malformed payload, or a non-200
application code — `fetch_hot_searches` does not raise past its boundary
and returns the fixed deterministic two-entry fallback list for that
platform. -/
theorem fetch_failure_fallback (source : String) :
    fetch_hot_searches source true ApiOutcome.transport_error =
        load_example_data source ∧
    fetch_hot_searches source true ApiOutcome.malformed_payload =
        load_example_data source ∧
    (∀ code items, code ≠ some 200 →
      fetch_hot_searches source true (ApiOutcome.payload code items) =
        load_example_data source) ∧
    (load_example_data source).length = 2 := by
  refine ⟨rfl, rfl, ?_, rfl⟩
  intro code items hcode
  show (if code ≠ some 200 then load_example_data source
    else normalize_items items source) = load_example_data source
  rw [if_pos hcode]

/-- Concrete instantiation of the C7 theorem: a transport error and a
non-200 application code both fall back to the example data. -/
theorem fetch_failure_fallback_witness :
    fetch_hot_searches "weibo" true ApiOutcome.transport_error =
        load_example_data "weibo" ∧
      fetch_hot_searches "weibo" true (ApiOutcome.payload (some 250) []) =
        load_example_data "weibo" := by
  have h := fetch_failure_fallback "weibo"
  exact ⟨h.1, h.2.2.1 (some 250) [] (by decide)⟩

/-- Claim C10: a successful live response (application code 200) with an
empty result list yields an empty topic list rather than the fallback, and
the enclosing analysis cycle then skips enrichment for the platform: no
batch is created and the history is returned unchanged. -/
theorem empty_success_skips_platform (source : String)
    (enrich : Topic → Except Unit TopicResult) (completion_order : List Topic)
    (now ts_hour : Nat) (history : List Batch) :
    fetch_hot_searches source true (ApiOutcome.payload (some 200) []) = [] ∧
    run_cycle_source source true (ApiOutcome.payload (some 200) [])
        enrich completion_order now ts_hour history = history ∧
    (analyze_topics enrich completion_order now ts_hour [] history).2 = history :=
  ⟨rfl, rfl, rfl⟩

/-- Claim C1: for every creative whose generation output carries numeric
`interest` and `usefulness` sub-scores, the Enricher derives
`total = interest*0.8 + usefulness*0.2` exactly, classifies the quality
tier as excellent iff `total ≥ 80`, good iff `60 ≤ total < 80` and
needs-improvement iff `total < 60`, and overwrites whatever total or
quality the generation supplied (the creative `c` below is arbitrary, so
its supplied `total` and `quality_class` are arbitrary). -/
theorem scoring_total_and_quality
    (search : String → Except Unit (List SearchResult)) (topic : Topic)
    (i : Nat) (c : Creative) (s : Scores) (interest usefulness : ℚ)
    (hs : c.scores = some s) (hi : s.interest = some interest)
    (hu : s.usefulness = some usefulness) :
    (process_creative search topic i c).scores =
        some { s with total := some (interest * 0.8 + usefulness * 0.2) } ∧
    ((process_creative search topic i c).quality_class = "excellent" ↔
        80 ≤ interest * 0.8 + usefulness * 0.2) ∧
    ((process_creative search topic i c).quality_class = "good" ↔
        (60 ≤ interest * 0.8 + usefulness * 0.2 ∧
          interest * 0.8 + usefulness * 0.2 < 80)) ∧
    ((process_creative search topic i c).quality_class = "needs-improvement" ↔
        interest * 0.8 + usefulness * 0.2 < 60) := by
  have hqc : (process_creative search topic i c).quality_class =
      (if interest * 0.8 + usefulness * 0.2 ≥ 80 then "excellent"
       else if interest * 0.8 + usefulness * 0.2 ≥ 60 then "good"
       else "needs-improvement") := by
    simp only [process_creative, hs, Option.some_bind, hi, hu, Option.getD_some]
  have hsc : (process_creative search topic i c).scores =
      some { s with total := some (interest * 0.8 + usefulness * 0.2) } := by
    simp only [process_creative, hs, Option.some_bind, hi, hu, Option.getD_some,
      Option.map_some']
  refine ⟨hsc, ?_, ?_, ?_⟩ <;> rw [hqc]
  · by_cases h80 : (80:ℚ) ≤ interest * 0.8 + usefulness * 0.2
    · rw [if_pos (by exact h80)]
      simp [h80]
    · rw [if_neg (by exact h80)]
      by_cases h60 : (60:ℚ) ≤ interest * 0.8 + usefulness * 0.2
      · rw [if_pos (by exact h60)]
        constructor
        · intro hcontra
          exact absurd hcontra (by decide)
        · intro h
          exact absurd h h80
      · rw [if_neg (by exact h60)]
        constructor
        · intro hcontra
          exact absurd hcontra (by decide)
        · intro h
          exact absurd h h80
  · by_cases h80 : (80:ℚ) ≤ interest * 0.8 + usefulness * 0.2
    · rw [if_pos (by exact h80)]
      constructor
      · intro hcontra
        exact absurd hcontra (by decide)
      · intro h
        exact absurd h80 (not_le.2 h.2)
    · rw [if_neg (by exact h80)]
      by_cases h60 : (60:ℚ) ≤ interest * 0.8 + usefulness * 0.2
      · rw [if_pos (by exact h60)]
        exact iff_of_true rfl ⟨h60, not_le.1 h80⟩
      · rw [if_neg (by exact h60)]
        constructor
        · intro hcontra
          exact absurd hcontra (by decide)
        · intro h
          exact absurd h.1 h60
  · by_cases h80 : (80:ℚ) ≤ interest * 0.8 + usefulness * 0.2
    · rw [if_pos (by exact h80)]
      constructor
      · intro hcontra
        exact absurd hcontra (by decide)
      · intro h
        exact absurd (lt_of_lt_of_le (by norm_num) (le_trans h80 (le_of_lt h)))
          (lt_irrefl _)
    · rw [if_neg (by exact h80)]
      by_cases h60 : (60:ℚ) ≤ interest * 0.8 + usefulness * 0.2
      · rw [if_pos (by exact h60)]
        constructor
        · intro hcontra
          exact absurd hcontra (by decide)
        · intro h
          exact absurd h60 (not_le.2 h)
      · rw [if_neg (by exact h60)]
        exact iff_of_true rfl (not_le.1 h60)

/-- Concrete instantiation of the C1 theorem: supplied sub-scores 100 and 0
with a bogus supplied total of 42 yield a derived total of 80 and the
excellent tier. -/
theorem scoring_total_and_quality_witness :
    (process_creative ok_search topic1 0 sample_creative).scores =
        some { interest := some 100, usefulness := some 0,
               total := some ((100:ℚ) * 0.8 + 0 * 0.2) } ∧
      (process_creative ok_search topic1 0 sample_creative).quality_class =
        "excellent" := by
  have h := scoring_total_and_quality ok_search topic1 0 sample_creative
    { interest := some 100, usefulness := some 0, total := some 42 }
    100 0 rfl rfl rfl
  exact ⟨h.1, h.2.1.2 (by norm_num)⟩

/-- Counterexample to claim C5 as stated: the claim quantifies over every
behavior of the injected capabilities, but the initial search call of
`_process_single_topic` sits outside its `try` block, so a raising search
capability propagates out of the Enricher instead of producing a
placeholder result. -/
theorem enricher_raises_on_search_failure :
    process_single_topic fail_search ok_gen 2026 "2026年01月01日" topic1 =
      Except.error () := rfl

/-- Claim C5 amended: provided the injected Search capability honours its
never-raise contract (always returns a result list), the Enricher never
raises past its boundary and returns a result for the same topic; a raising
Generation capability is absorbed by the `try` block and yields the
failure-placeholder result with the placeholder research summary and an
empty idea list. -/
theorem enricher_no_raise_amended
    (search : String → Except Unit (List SearchResult))
    (gen : String → Except Unit LLMResult) (year : Nat) (date_str : String)
    (topic : Topic)
    (hsearch : ∀ q, ∃ rs, search q = Except.ok rs) :
    (∃ r, process_single_topic search gen year date_str topic = Except.ok r ∧
        r.topic = topic) ∧
    (∀ ctx e, gen (prompt_for date_str topic ctx) = Except.error e →
        process_with_llm search gen date_str topic ctx = failed_result topic) ∧
    (failed_result topic).research = research_error ∧
    (failed_result topic).creatives = [] := by
  refine ⟨?_, ?_, rfl, rfl⟩
  · obtain ⟨rs, hrs⟩ := hsearch (search_query topic year)
    refine ⟨process_with_llm search gen date_str topic (search_context rs), ?_, ?_⟩
    · unfold process_single_topic
      rw [hrs]
      rfl
    · unfold process_with_llm
      cases hgen : gen (prompt_for date_str topic (search_context rs)) with
      | error e => rfl
      | ok llm => rfl
  · intro ctx e hgen
    unfold process_with_llm
    rw [hgen]

/-- Concrete instantiation of the amended C5 theorem: an always-ok search
with an always-raising generation yields an ok result, and the guarded
block returns the failure placeholder. -/
theorem enricher_no_raise_witness :
    (∃ r, process_single_topic ok_search fail_gen 2026 "2026年01月01日" topic1 =
        Except.ok r ∧ r.topic = topic1) ∧
      process_with_llm ok_search fail_gen "2026年01月01日" topic1
        (search_context []) = failed_result topic1 := by
  have h := enricher_no_raise_amended ok_search fail_gen 2026 "2026年01月01日"
    topic1 (fun q => ⟨[], rfl⟩)
  exact ⟨h.1, h.2.1 (search_context []) () rfl⟩

lemma collect_competitors_length_le :
    ∀ (rs : List SearchResult) (count : Nat),
      (collect_competitors rs count).length ≤ 2 - count := by
  intro rs
  induction rs with
  | nil => intro count; simp [collect_competitors]
  | cons res rest ih =>
      intro count
      unfold collect_competitors
      by_cases hc : 2 ≤ count
      · rw [if_pos hc]
        simp
      · rw [if_neg hc]
        by_cases hskip : skip_competitor res
        · rw [if_pos hskip]
          exact ih count
        · rw [if_neg hskip]
          have := ih (count + 1)
          simp only [List.length_cons]
          omega

lemma collect_competitors_mem :
    ∀ (rs : List SearchResult) (count : Nat) (comp : Competitor),
      comp ∈ collect_competitors rs count →
        ∃ r ∈ rs, comp.name = r.title ∧ comp.url = r.link ∧
          skip_competitor r = false := by
  intro rs
  induction rs with
  | nil => intro count comp hmem; simp [collect_competitors] at hmem
  | cons res rest ih =>
      intro count comp hmem
      unfold collect_competitors at hmem
      by_cases hc : 2 ≤ count
      · rw [if_pos hc] at hmem
        exact absurd hmem (List.not_mem_nil comp)
      · rw [if_neg hc] at hmem
        by_cases hskip : skip_competitor res
        · rw [if_pos hskip] at hmem
          obtain ⟨r, hr, h⟩ := ih count comp hmem
          exact ⟨r, List.mem_cons_of_mem res hr, h⟩
        · rw [if_neg hskip] at hmem
          rcases List.mem_cons.1 hmem with rfl | hmem'
          · exact ⟨res, List.mem_cons_self res rest,
              rfl, rfl, Bool.eq_false_iff.2 hskip⟩
          · obtain ⟨r, hr, h⟩ := ih (count + 1) comp hmem'
            exact ⟨r, List.mem_cons_of_mem res hr, h⟩

/-- Counterexample to claim C8 as stated: a competitor hit whose link
contains the denylisted substring `similarweb` — but not `similarweb.com` —
and whose title is clean is kept, because the source checks only
`similarweb.com` against the link (bare `similarweb` is checked against the
title alone). -/
theorem competitor_filter_counterexample :
    collect_competitors [sneaky_result] 0 =
        [{ name := "Top apps ranking", url := "https://similarweb.io/top-apps" }] ∧
      strContains (lowerStr sneaky_result.link) "similarweb" = true := by
  constructor
  · decide
  · decide

/-- Claim C8 amended: every idea's competitor list holds at most 2 entries;
every kept entry passed the source's filter — `similarweb.com` in the
lowercased link or `similarweb` in the lowercased title, or any of the six
dictionary/grammar substrings in either, cause a skip — and a raising
competitor search degrades the idea's competitors to the empty list. -/
theorem competitor_filter_amended (rs : List SearchResult) :
    (collect_competitors rs 0).length ≤ 2 ∧
    (∀ comp ∈ collect_competitors rs 0, ∃ r ∈ rs,
        comp.name = r.title ∧ comp.url = r.link ∧ skip_competitor r = false) ∧
    (∀ (search : String → Except Unit (List SearchResult)) (topic : Topic)
        (i : Nat) (c : Creative),
      search (comp_query (c.search_keywords.getD c.name)) = Except.error () →
        (process_creative search topic i c).competitors = []) := by
  refine ⟨collect_competitors_length_le rs 0, collect_competitors_mem rs 0, ?_⟩
  intro search topic i c hfail
  simp only [process_creative, hfail]

/-- Concrete instantiation of the amended C8 theorem. -/
theorem competitor_filter_amended_witness :
    (collect_competitors [sneaky_result] 0).length ≤ 2 ∧
      (process_creative fail_search topic1 0 sample_creative).competitors = [] := by
  have h := competitor_filter_amended [sneaky_result]
  exact ⟨h.1, h.2.2 fail_search topic1 0 sample_creative rfl⟩

lemma except_toOption_eq_some {e : Except Unit TopicResult} {r : TopicResult} :
    e.toOption = some r ↔ e = Except.ok r := by
  cases e with
  | error err => simp [Except.toOption]
  | ok v => simp [Except.toOption]

lemma mem_collect_results {enrich : Topic → Except Unit TopicResult}
    {co : List Topic} {r : TopicResult} :
    r ∈ collect_results enrich co ↔ ∃ t ∈ co, (enrich t).toOption = some r := by
  simp [collect_results, List.mem_filterMap]

lemma pairwise_lt_perm_eq (f : TopicResult → Nat) :
    ∀ {l1 l2 : List TopicResult}, l1.Perm l2 →
      l1.Pairwise (fun a b => f a < f b) →
      l2.Pairwise (fun a b => f a < f b) → l1 = l2 := by
  intro l1
  induction l1 with
  | nil =>
      intro l2 hp _ _
      exact hp.nil_eq
  | cons a t ih =>
      intro l2 hp h1 h2
      cases l2 with
      | nil => exact absurd (List.Perm.eq_nil hp) (List.cons_ne_nil a t)
      | cons b t2 =>
          have hab : a = b := by
            by_contra hne
            have hma : a ∈ b :: t2 := hp.mem_iff.1 (List.mem_cons_self a t)
            have ha2 : a ∈ t2 := by
              rcases List.mem_cons.1 hma with h | h
              · exact absurd h hne
              · exact h
            have hmb : b ∈ a :: t := hp.mem_iff.2 (List.mem_cons_self b t2)
            have hb1 : b ∈ t := by
              rcases List.mem_cons.1 hmb with h | h
              · exact absurd h.symm hne
              · exact h
            have hlt1 := (List.pairwise_cons.1 h1).1 b hb1
            have hlt2 := (List.pairwise_cons.1 h2).1 a ha2
            omega
          subst hab
          have hp' : t.Perm t2 := (List.perm_cons a).1 hp
          rw [ih hp' (List.pairwise_cons.1 h1).2 (List.pairwise_cons.1 h2).2]

lemma collect_results_rank_nodup
    (enrich : Topic → Except Unit TopicResult) :
    ∀ (co : List Topic),
      (∀ t ∈ co, ∀ r, enrich t = Except.ok r → r.topic = t) →
      (co.map Topic.rank).Nodup →
      ((collect_results enrich co).map (fun r => r.topic.rank)).Nodup := by
  intro co
  induction co with
  | nil =>
      intro _ _
      simp [collect_results]
  | cons t rest ih =>
      intro hpres hnodup
      rw [List.map_cons, List.nodup_cons] at hnodup
      have hnotin := hnodup.1
      have hnodup' := hnodup.2
      have hpres' : ∀ t' ∈ rest, ∀ r, enrich t' = Except.ok r → r.topic = t' :=
        fun t' ht' => hpres t' (List.mem_cons_of_mem t ht')
      cases he : (enrich t).toOption with
      | none =>
          have hcc : collect_results enrich (t :: rest) =
              collect_results enrich rest := by
            simp [collect_results, List.filterMap_cons, he]
          rw [hcc]
          exact ih hpres' hnodup'
      | some r =>
          have hcc : collect_results enrich (t :: rest) =
              r :: collect_results enrich rest := by
            simp [collect_results, List.filterMap_cons, he]
          rw [hcc, List.map_cons, List.nodup_cons]
          have hrt : r.topic = t :=
            hpres t (List.mem_cons_self t rest) r (except_toOption_eq_some.1 he)
          constructor
          · intro hmem
            obtain ⟨r', hr', hrank⟩ := List.mem_map.1 hmem
            obtain ⟨t', ht', he'⟩ := mem_collect_results.1 hr'
            have hrt' : r'.topic = t' :=
              hpres' t' ht' r' (except_toOption_eq_some.1 he')
            apply hnotin
            refine List.mem_map.2 ⟨t', ht', ?_⟩
            rw [hrt'] at hrank
            rw [hrank, hrt]
          · exact ih hpres' hnodup'

lemma sorted_nodup_strict (l : List TopicResult)
    (hs : List.Sorted rank_le l)
    (hn : (l.map (fun r => r.topic.rank)).Nodup) :
    l.Pairwise (fun a b => a.topic.rank < b.topic.rank) := by
  have hne : l.Pairwise (fun a b => a.topic.rank ≠ b.topic.rank) :=
    List.pairwise_map.1 hn
  exact (hs.and hne).imp (fun hab => lt_of_le_of_ne hab.1 hab.2)

lemma collect_results_length_all_ok
    (enrich : Topic → Except Unit TopicResult) :
    ∀ (co : List Topic), (∀ t ∈ co, (enrich t).toOption.isSome) →
      (collect_results enrich co).length = co.length := by
  intro co
  induction co with
  | nil => intro _; rfl
  | cons t rest ih =>
      intro hall
      obtain ⟨r, hr⟩ :=
        Option.isSome_iff_exists.1 (hall t (List.mem_cons_self t rest))
      have hcc : collect_results enrich (t :: rest) =
          r :: collect_results enrich rest := by
        simp [collect_results, List.filterMap_cons, hr]
      rw [hcc, List.length_cons, List.length_cons,
        ih (fun t' ht' => hall t' (List.mem_cons_of_mem t ht'))]

lemma collect_results_length_one_fail
    (enrich : Topic → Except Unit TopicResult) (t0 : Topic)
    (herr : (enrich t0).toOption = none) :
    ∀ (co : List Topic), co.count t0 = 1 →
      (∀ t ∈ co, t ≠ t0 → (enrich t).toOption.isSome) →
      (collect_results enrich co).length = co.length - 1 := by
  intro co
  induction co with
  | nil => intro h _; simp at h
  | cons t rest ih =>
      intro hcount hok
      by_cases ht : t = t0
      · subst ht
        rw [List.count_cons_self] at hcount
        have hc0 : rest.count t = 0 := by omega
        have hnotin : t ∉ rest := List.count_eq_zero.1 hc0
        have hcc : collect_results enrich (t :: rest) =
            collect_results enrich rest := by
          simp [collect_results, List.filterMap_cons, herr]
        rw [hcc]
        have hallok : ∀ t' ∈ rest, (enrich t').toOption.isSome := by
          intro t' ht'
          exact hok t' (List.mem_cons_of_mem t ht')
            (fun hEq => hnotin (hEq ▸ ht'))
        rw [collect_results_length_all_ok enrich rest hallok]
        simp
      · have ht0t : t0 ≠ t := fun h => ht h.symm
        rw [List.count_cons_of_ne ht0t] at hcount
        obtain ⟨r, hr⟩ :=
          Option.isSome_iff_exists.1 (hok t (List.mem_cons_self t rest) ht)
        have hcc : collect_results enrich (t :: rest) =
            r :: collect_results enrich rest := by
          simp [collect_results, List.filterMap_cons, hr]
        have hlenrest : 1 ≤ rest.length := by
          have := List.count_le_length t0 rest
          omega
        have hrest := ih hcount
          (fun t' ht' => hok t' (List.mem_cons_of_mem t ht'))
        rw [hcc, List.length_cons, hrest, List.length_cons]
        omega

/-- Claim C4: for every batch of topics with pairwise-distinct ranks and
every order in which the concurrent enrichments complete, the results of
the produced batch are sorted by `topic.rank` ascending, and the whole
outcome is identical for any two completion orders — deterministic and
independent of completion timing.  The hypothesis `hpres` records that the
enrichment tags each result with its own topic, as `_process_single_topic`
does on both of its return paths. -/
theorem batch_results_sorted_deterministic
    (enrich : Topic → Except Unit TopicResult) (topics co1 co2 : List Topic)
    (now ts_hour : Nat) (history : List Batch)
    (h1 : co1.Perm topics) (h2 : co2.Perm topics)
    (hnodup : (topics.map Topic.rank).Nodup)
    (hpres : ∀ t ∈ topics, ∀ r, enrich t = Except.ok r → r.topic = t) :
    List.Sorted rank_le
        (analyze_topics enrich co1 now ts_hour topics history).1 ∧
    analyze_topics enrich co1 now ts_hour topics history =
      analyze_topics enrich co2 now ts_hour topics history := by
  by_cases hE : topics.isEmpty = true
  · have e1 : analyze_topics enrich co1 now ts_hour topics history =
        ([], history) := by
      unfold analyze_topics
      rw [if_pos hE]
    have e2 : analyze_topics enrich co2 now ts_hour topics history =
        ([], history) := by
      unfold analyze_topics
      rw [if_pos hE]
    rw [e1, e2]
    exact ⟨List.sorted_nil, rfl⟩
  · have hperm12 : (collect_results enrich co1).Perm (collect_results enrich co2) :=
      List.Perm.filterMap _ (h1.trans h2.symm)
    have hsorted1 : List.Sorted rank_le (sortByRank (collect_results enrich co1)) :=
      List.sorted_insertionSort rank_le _
    have hsorted2 : List.Sorted rank_le (sortByRank (collect_results enrich co2)) :=
      List.sorted_insertionSort rank_le _
    have hnd1 : ((collect_results enrich co1).map (fun r => r.topic.rank)).Nodup :=
      collect_results_rank_nodup enrich co1
        (fun t ht => hpres t (h1.mem_iff.1 ht))
        (((List.Perm.map Topic.rank h1).nodup_iff).2 hnodup)
    have hnd2 : ((collect_results enrich co2).map (fun r => r.topic.rank)).Nodup :=
      collect_results_rank_nodup enrich co2
        (fun t ht => hpres t (h2.mem_iff.1 ht))
        (((List.Perm.map Topic.rank h2).nodup_iff).2 hnodup)
    have hnd1' : ((sortByRank (collect_results enrich co1)).map
        (fun r => r.topic.rank)).Nodup :=
      ((List.Perm.map (fun r => r.topic.rank)
        (List.perm_insertionSort rank_le _)).nodup_iff).2 hnd1
    have hnd2' : ((sortByRank (collect_results enrich co2)).map
        (fun r => r.topic.rank)).Nodup :=
      ((List.Perm.map (fun r => r.topic.rank)
        (List.perm_insertionSort rank_le _)).nodup_iff).2 hnd2
    have hpermSorted : (sortByRank (collect_results enrich co1)).Perm
        (sortByRank (collect_results enrich co2)) :=
      (List.perm_insertionSort rank_le _).trans
        (hperm12.trans (List.perm_insertionSort rank_le _).symm)
    have hkey : sortByRank (collect_results enrich co1) =
        sortByRank (collect_results enrich co2) :=
      pairwise_lt_perm_eq (fun r => r.topic.rank) hpermSorted
        (sorted_nodup_strict _ hsorted1 hnd1')
        (sorted_nodup_strict _ hsorted2 hnd2')
    constructor
    · have e1 : (analyze_topics enrich co1 now ts_hour topics history).1 =
          sortByRank (collect_results enrich co1) := by
        unfold analyze_topics
        rw [if_neg hE]
      rw [e1]
      exact hsorted1
    · unfold analyze_topics
      rw [if_neg hE, if_neg hE, hkey]

/-- Concrete instantiation of the C4 theorem: two completion orders of two
topics give the same rank-sorted batch. -/
theorem batch_results_sorted_witness :
    List.Sorted rank_le
        (analyze_topics simple_enrich [topic2, topic1] 5 5 [topic1, topic2] []).1 ∧
      analyze_topics simple_enrich [topic2, topic1] 5 5 [topic1, topic2] [] =
        analyze_topics simple_enrich [topic1, topic2] 5 5 [topic1, topic2] [] := by
  have h := batch_results_sorted_deterministic simple_enrich [topic1, topic2]
    [topic2, topic1] [topic1, topic2] 5 5 []
    (List.Perm.swap topic1 topic2 []) (List.Perm.refl _) (by decide)
    (fun t ht r hr => by cases hr; rfl)
  exact h

/-- Claim C6: if exactly one of the topics raises unhandled during
enrichment, it is dropped at the coordinator boundary and the batch holds
exactly the remaining results: the length is N-1 and every surviving
topic's result is present — no sibling enrichment is lost and the run
completes. -/
theorem topic_drop_isolation
    (enrich : Topic → Except Unit TopicResult) (topics co : List Topic)
    (t0 : Topic) (now ts_hour : Nat) (history : List Batch)
    (hperm : co.Perm topics) (hnodup : topics.Nodup) (ht0 : t0 ∈ topics)
    (herr : enrich t0 = Except.error ())
    (hok : ∀ t ∈ topics, t ≠ t0 → ∃ r, enrich t = Except.ok r) :
    (analyze_topics enrich co now ts_hour topics history).1.length =
        topics.length - 1 ∧
    (∀ t ∈ topics, t ≠ t0 → ∀ r, enrich t = Except.ok r →
        r ∈ (analyze_topics enrich co now ts_hour topics history).1) := by
  have hE : ¬ topics.isEmpty = true := by
    cases topics with
    | nil => exact absurd ht0 (List.not_mem_nil t0)
    | cons a l => simp
  have heq : (analyze_topics enrich co now ts_hour topics history).1 =
      sortByRank (collect_results enrich co) := by
    unfold analyze_topics
    rw [if_neg hE]
  have herr' : (enrich t0).toOption = none := by
    rw [herr]
    rfl
  constructor
  · rw [heq]
    unfold sortByRank
    rw [List.length_insertionSort]
    have hcnt : co.count t0 = 1 := by
      rw [hperm.count_eq]
      exact List.count_eq_one_of_mem hnodup ht0
    have hok' : ∀ t ∈ co, t ≠ t0 → (enrich t).toOption.isSome := by
      intro t ht hne'
      obtain ⟨r, hr⟩ := hok t (hperm.mem_iff.1 ht) hne'
      rw [hr]
      rfl
    rw [collect_results_length_one_fail enrich t0 herr' co hcnt hok',
      hperm.length_eq]
  · intro t ht hne' r hr
    rw [heq]
    have hmem : r ∈ collect_results enrich co :=
      mem_collect_results.2 ⟨t, hperm.mem_iff.2 ht, by rw [hr]; rfl⟩
    unfold sortByRank
    exact (List.mem_insertionSort rank_le).2 hmem

/-- Concrete instantiation of the C6 theorem: of two topics, the rank-1
enrichment raises, and the batch holds exactly the one surviving result. -/
theorem topic_drop_isolation_witness :
    (analyze_topics drop_enrich [topic2, topic1] 5 5 [topic1, topic2] []).1.length
      = 1 := by
  have h := topic_drop_isolation drop_enrich [topic1, topic2] [topic2, topic1]
    topic1 5 5 [] (List.Perm.swap topic1 topic2 []) (by decide)
    (List.mem_cons_self topic1 [topic2]) rfl
    (fun t ht hne => by
      rcases List.mem_cons.1 ht with rfl | ht2
      · exact absurd rfl hne
      · rcases List.mem_singleton.1 ht2 with rfl
        exact ⟨_, rfl⟩)
  exact h.1

end Weibo
